import Mathlib

/-!
# Queso VM — a shallow embedding of `src/vm.rs` and `src/instruction.rs`

This file embeds the interpreter loop of the Queso bytecode VM (`VM::run`
in `src/vm.rs`) together with the runtime data model it manipulates, and
proves the specification claims about it.

Conventions of the embedding:

* Rust `f64` numbers are modelled by the type `F`: exact rationals for the
  finite values plus the IEEE special values `inf`, `ninf` (−∞) and `nan`.
  Overflow-to-infinity and signed zero are not modelled; no claim depends
  on them.  `f64 == 0.0` is `fIsZero` (true exactly on the rational zero,
  false on `nan`/`±inf`, matching IEEE `==`).
* Rust `u16` casts and arithmetic are modelled explicitly: `x as u16` is
  `x % 65536`, and a `u16` addition or subtraction that would wrap traps
  (debug-profile Rust panics on overflow); the embedding returns the
  `panic` outcome on those paths.
* The evaluation stack `Vec<Value>` is modelled as a `List Value` whose
  HEAD is the TOP of the vector (the push/pop end).  Absolute indices used
  by the source (`stack[id]`, counted from the bottom) are translated by
  `getStack?`/`setStack?`; `Vec::truncate` is `truncateStack`.
* Rust panics (`unwrap`, `expect`, out-of-bounds indexing, `panic!`,
  debug-overflow) are the `Outcome.panic` result; `return Err(msg)` is
  `Outcome.err msg`; the `break` out of the interpreter loop (normal
  termination) is `Outcome.halt` carrying the final VM state.
* The heap (`heap.rs` is not among the provided sources) is modelled from
  the spec §4.3 as a registry from stable `u32` ids to objects: a list of
  `(id, obj)` pairs plus a monotonic `next` id counter.
* `GC::collect_garbage` (`gc.rs` is not among the provided sources) is
  modelled as an abstract parameter `collect : VMState → Heap` computing
  the swept heap from the VM state, per spec §4.11; the claims about GC
  points hold for every such function.
-/

/-- Finite `f64` values as exact rationals, plus the IEEE specials.
Modelled from the spec: §3 fixes `Number(f64)`; overflow and signed zero
are not modelled (no claim depends on them). -/
inductive F where
  | num (q : ℚ)
  | inf
  | ninf
  | nan
deriving DecidableEq

/-- IEEE `x == 0.0`: true exactly on (rational) zero; `nan`/`±inf` are not
equal to zero.  (IEEE `-0.0 == 0.0` holds; the model's single zero stands
for both.)  This is the test `n2 == 0.` in the `Divide` arm of `vm.rs`. -/
def fIsZero : F → Bool
  | .num q => q = 0
  | _ => false

/-- f64 negation. -/
def fneg : F → F
  | .num q => .num (-q)
  | .inf => .ninf
  | .ninf => .inf
  | .nan => .nan

/-- f64 addition (finite arithmetic exact; overflow not modelled). -/
def fadd : F → F → F
  | .nan, _ => .nan
  | _, .nan => .nan
  | .inf, .ninf => .nan
  | .ninf, .inf => .nan
  | .inf, _ => .inf
  | _, .inf => .inf
  | .ninf, _ => .ninf
  | _, .ninf => .ninf
  | .num a, .num b => .num (a + b)

/-- f64 subtraction, via `a + (-b)`. -/
def fsub (a b : F) : F := fadd a (fneg b)

/-- f64 multiplication (finite arithmetic exact; overflow not modelled). -/
def fmul : F → F → F
  | .nan, _ => .nan
  | _, .nan => .nan
  | .inf, .inf => .inf
  | .inf, .ninf => .ninf
  | .ninf, .inf => .ninf
  | .ninf, .ninf => .inf
  | .inf, .num q => if q = 0 then .nan else if q < 0 then .ninf else .inf
  | .num q, .inf => if q = 0 then .nan else if q < 0 then .ninf else .inf
  | .ninf, .num q => if q = 0 then .nan else if q < 0 then .inf else .ninf
  | .num q, .ninf => if q = 0 then .nan else if q < 0 then .inf else .ninf
  | .num a, .num b => .num (a * b)

/-- f64 division.  The `Divide` instruction only reaches this with a
non-zero divisor (it errors out on `fIsZero` first); the division-by-zero
rows are IEEE for totality. -/
def fdiv : F → F → F
  | .nan, _ => .nan
  | _, .nan => .nan
  | .inf, .inf => .nan
  | .inf, .ninf => .nan
  | .ninf, .inf => .nan
  | .ninf, .ninf => .nan
  | .inf, .num q => if q < 0 then .ninf else .inf
  | .ninf, .num q => if q < 0 then .inf else .ninf
  | .num _, .inf => .num 0
  | .num _, .ninf => .num 0
  | .num a, .num b =>
      if b = 0 then (if a = 0 then .nan else if a < 0 then .ninf else .inf)
      else .num (a / b)

/-- f64 `==` restricted to numbers: structural on finite/infinite values,
and `nan` is not equal to anything (including itself). -/
def feqB : F → F → Bool
  | .num a, .num b => a = b
  | .inf, .inf => true
  | .ninf, .ninf => true
  | _, _ => false

/-- f64 `>` : finite values by rational order, `inf` above all non-`nan`,
`ninf` below; any comparison involving `nan` is false. -/
def fgtB : F → F → Bool
  | .num a, .num b => b < a
  | .inf, .num _ => true
  | .inf, .ninf => true
  | .num _, .ninf => true
  | _, _ => false

/-- Canonical decimal rendering of a number (spec §4.1: implementer's
choice but stable; integers render with no fractional part). -/
def fToString : F → String
  | .num q => if q.den = 1 then toString q.num else toString q.num ++ "/" ++ toString q.den
  | .inf => "inf"
  | .ninf => "-inf"
  | .nan => "NaN"

/-- Upvalue descriptor operand of the `Closure` instruction
(`UpValueIndex` in the source): `is_local` selects a fresh capture of the
current frame's slot `id`, otherwise `id` indexes the enclosing closure's
upvalue vector. -/
structure UpValueIndex where
  is_local : Bool
  id : ℕ
deriving DecidableEq

/-- The bytecode instruction set actually dispatched by `VM::run` in
`src/vm.rs` (the richer of the two drafts in the source; the narrower
enum in `src/instruction.rs` is historical).  `u16` operands are carried
as `ℕ`. -/
inductive Instruction where
  | PushConstant (id : ℕ)
  | PushTrue
  | PushFalse
  | PushNull
  | Negate
  | ToNumber
  | Not
  | Add
  | Subtract
  | Multiply
  | Divide
  | Equal
  | NotEqual
  | GreaterEqual
  | LessEqual
  | Greater
  | Less
  | Trace
  | Pop
  | GetLocal (id : ℕ)
  | GetUpValue (id : ℕ)
  | SetLocal (id : ℕ)
  | SetUpValue (id : ℕ)
  | Declare (id : ℕ)
  | JumpIfFalsy (d : ℕ)
  | PopAndJumpIfFalsy (d : ℕ)
  | JumpIfTruthy (d : ℕ)
  | Jump (d : ℕ)
  | FnCall (argc : ℕ)
  | Reserve (n : ℕ)
  | Closure (id : ℕ) (constId : ℕ) (upvalueids : List UpValueIndex)
  | Return
deriving DecidableEq

/-- Location of an upvalue cell: Open (`Stack slot`, an absolute index
into the evaluation stack) or Closed (`Heap id`, a boxed cell). -/
inductive UpValueLocation where
  | stack (slot : ℕ)
  | heap (id : ℕ)
deriving DecidableEq

/-- `Closure { function_id, upvalues }`: heap id of the function object
plus the upvalue-cell ids captured at creation. -/
structure Closure where
  func : ℕ
  upvalues : List ℕ
deriving DecidableEq

mutual
/-- Runtime tagged value (spec §3 / `Value` in the source, which is not
among the provided files).  `obj` wraps a function object stored in a
constant pool (`Value::Obj` in the `Closure` arm of `vm.rs`); `heapRef`
is `Value::Heap(id)`. -/
inductive Value where
  | null : Value
  | bool : Bool → Value
  | number : F → Value
  | str : String → Value
  | heapRef : ℕ → Value
  | obj : ObjType → Value
  | uninitialized : Value

/-- Heap object kinds (spec §4.3): `function chk captured_slots`,
`closure`, `upValue`, and `boxed` value cells. -/
inductive ObjType where
  | function : Chunk → List ℕ → ObjType
  | closure : Closure → ObjType
  | upValue : UpValueLocation → ObjType
  | boxed : Value → ObjType

/-- A compiled chunk: instruction stream plus constant pool (the source
line map only affects diagnostic strings and is not modelled). -/
inductive Chunk where
  | mk : List Instruction → List Value → Chunk
end

/-- The instruction stream of a chunk. -/
def Chunk.instrs : Chunk → List Instruction
  | .mk i _ => i

/-- The constant pool of a chunk. -/
def Chunk.consts : Chunk → List Value
  | .mk _ c => c

/-- `Chunk::try_get_instr`: the instruction at an index, or nothing past
the end. -/
def Chunk.tryGetInstr (c : Chunk) (i : ℕ) : Option Instruction :=
  c.instrs.get? i

/-- Managed heap (spec §4.3; `heap.rs` is not among the provided
sources): a registry of `(id, object)` pairs with a monotonic `next` id. -/
structure Heap where
  next : ℕ
  mem : List (ℕ × ObjType)

/-- Look an object up by id (first matching entry). -/
def Heap.get (h : Heap) (id : ℕ) : Option ObjType :=
  (h.mem.find? (fun p => p.1 = id)).map (·.2)

/-- `Heap::alloc`: register an object under the next fresh id. -/
def Heap.alloc (h : Heap) (o : ObjType) : ℕ × Heap :=
  (h.next, ⟨h.next + 1, (h.next, o) :: h.mem⟩)

/-- `Heap::alloc_val`: allocate a boxed value cell. -/
def Heap.allocVal (h : Heap) (v : Value) : ℕ × Heap :=
  h.alloc (.boxed v)

/-- `Heap::get_upvalue`: the location stored in an upvalue cell, or
nothing if the id is absent or not an upvalue (the source unwraps:
that path is a panic). -/
def Heap.getUpValue (h : Heap) (id : ℕ) : Option UpValueLocation :=
  match h.get id with
  | some (.upValue loc) => some loc
  | _ => none

/-- `UpValue::close` through `Heap::get_upvalue_mut`: rewrite the cell
`id` to the given location. -/
def Heap.setUpvLoc (h : Heap) (id : ℕ) (loc : UpValueLocation) : Heap :=
  ⟨h.next, h.mem.map (fun p => if p.1 = id then (p.1, .upValue loc) else p)⟩

/-- `Heap::set_val`: overwrite the boxed cell `id` with a new value
(panic — `none` — when the id is absent). -/
def Heap.setVal (h : Heap) (id : ℕ) (v : Value) : Option Heap :=
  if (h.get id).isSome then
    some ⟨h.next, h.mem.map (fun p => if p.1 = id then (p.1, .boxed v) else p)⟩
  else none

/-- `Heap::get_clsr_fn`: the chunk and captured-slot list of the function
object a closure points to (panic — `none` — when absent or not a
function). -/
def Heap.getClsrFn (h : Heap) (c : Closure) : Option (Chunk × List ℕ) :=
  match h.get c.func with
  | some (.function chk cap) => some (chk, cap)
  | _ => none

/-- A call frame: active closure, `cur_instr` (index of the next
instruction to fetch) and absolute `stack_base`. -/
structure CallFrame where
  clsr : Closure
  cur_instr : ℕ
  stack_base : ℕ

/-- Modelled from the spec: `CallFrame::from_closure` is outside the
provided sources; §4.7 fixes the new frame to `stack_base =
position_of_callee` and `pc = 0`. -/
def CallFrame.from_closure (c : Closure) (base : ℕ) : CallFrame :=
  ⟨c, 0, base⟩

/-- The evaluation stack: a Rust `Vec<Value>` whose push/pop end (the
vector's back) is the HEAD of this list. -/
abbrev Stack := List Value

/-- `VM::get_stack(id)`: read the value at absolute (bottom-counted)
index `id`; `none` is the out-of-bounds panic. -/
def getStack? (s : Stack) (id : ℕ) : Option Value :=
  if id < s.length then s.get? (s.length - 1 - id) else none

/-- `VM::set_stack(id, v)` (`self.stack[id] = v`): write at absolute
index `id`; `none` is the out-of-bounds panic. -/
def setStack? (s : Stack) (id : ℕ) (v : Value) : Option Stack :=
  if id < s.length then some (s.set (s.length - 1 - id) v) else none

/-- `Vec::truncate(n)`: keep the bottom `n` values (no-op when the stack
is already at most `n` deep). -/
def truncateStack (s : Stack) (n : ℕ) : Stack :=
  s.drop (s.length - n)

/-- The VM state: active frame, call stack, open-upvalue list, evaluation
stack, heap, and the GC threshold (`gc_thr`).  The stdout buffer and the
debug flag only affect printing and are not modelled. -/
structure VMState where
  frame : CallFrame
  callstack : List CallFrame
  open_upvalues : List ℕ
  stack : Stack
  heap : Heap
  gc_thr : ℕ

/-- Result of dispatching one instruction: continue running, terminate
normally (the root-`Return` `break`), fail with a runtime error string
(`return Err(msg)`), or hit a Rust panic. -/
inductive Outcome where
  | ok (s : VMState)
  | halt (s : VMState)
  | err (msg : String)
  | panic

/-- The VM state carried by a non-panicking, non-erroring outcome. -/
def Outcome.stateOf? : Outcome → Option VMState
  | .ok s => some s
  | .halt s => some s
  | _ => none

/-- Modelled from the spec: `Value::is_truthy` (§3; `Value` is outside
the provided sources): `false`, `Null` and `Uninitialized` are falsy,
everything else is truthy. -/
def isTruthy : Value → Bool
  | .bool false => false
  | .null => false
  | .uninitialized => false
  | _ => true

/-- Modelled from the spec: `Value::to_number` (§4.1): numbers map to
themselves, booleans to 1/0, `Null` to 0, strings parse or fail, and
everything else fails with `TypeCoercion`. -/
def toNumberV : Value → Except String F
  | .number n => .ok n
  | .bool true => .ok (.num 1)
  | .bool false => .ok (.num 0)
  | .null => .ok (.num 0)
  | .str s =>
      match s.toInt? with
      | some n => .ok (.num n)
      | none => .error "TypeCoercion"
  | _ => .error "TypeCoercion"

/-- Modelled from the spec: `Value::to_string` (§4.1): literals for
`null`/booleans, canonical decimal for numbers, strings by identity,
heap references by a debug form; the remaining shapes fail with
`TypeCoercion`. -/
def toStringV : Value → Except String String
  | .null => .ok "null"
  | .bool true => .ok "true"
  | .bool false => .ok "false"
  | .number n => .ok (fToString n)
  | .str s => .ok s
  | .heapRef id => .ok ("<obj " ++ toString id ++ ">")
  | _ => .error "TypeCoercion"

/-- Modelled from the spec: `Value::is_equal_to` (§4.1): same-tag
structural equality, false across tags; numbers via IEEE `==`
(`NaN ≠ NaN`). -/
def isEqualTo : Value → Value → Bool
  | .null, .null => true
  | .bool a, .bool b => a = b
  | .number a, .number b => feqB a b
  | .str a, .str b => a = b
  | .heapRef a, .heapRef b => a = b
  | .uninitialized, .uninitialized => true
  | _, _ => false

/-- Modelled from the spec: `Value::is_greater_than` (§4.1): numbers by
`>`, strings lexicographically; the dispatcher in `vm.rs` uses the
result in a total (`bool`) position, so other shapes yield `false`. -/
def isGreaterThan : Value → Value → Bool
  | .number a, .number b => fgtB a b
  | .str a, .str b => b < a
  | _, _ => false

/-- The `Add` arm of `VM::run` (operands already popped; `a` left,
`b` right): numeric sum, or string concatenation where the or-pattern
`(String(s1), v) | (v, String(s1))` puts the matched string first. -/
def addValues (a b : Value) : Except String Value :=
  match a, b with
  | .number n1, .number n2 => .ok (.number (fadd n1 n2))
  | .str s1, v =>
      match toStringV v with
      | .ok s2 => .ok (.str (s1 ++ s2))
      | .error e => .error e
  | v, .str s1 =>
      match toStringV v with
      | .ok s2 => .ok (.str (s1 ++ s2))
      | .error e => .error e
  | _, _ => .error "The addition operator can only be used with numbers and strings"

/-- The `Subtract` arm of `VM::run` (operands already popped). -/
def subValues (a b : Value) : Except String Value :=
  match a, b with
  | .number n1, .number n2 => .ok (.number (fsub n1 n2))
  | _, _ => .error "The subtraction operator can only be used with numbers"

/-- The `Multiply` arm of `VM::run` (operands already popped). -/
def mulValues (a b : Value) : Except String Value :=
  match a, b with
  | .number n1, .number n2 => .ok (.number (fmul n1 n2))
  | _, _ => .error "The multiplication operator can only be used with numbers"

/-- The `Divide` arm of `VM::run` (operands already popped): `n2 == 0.`
fails with the divide-by-zero error, otherwise the quotient is pushed. -/
def divValues (a b : Value) : Except String Value :=
  match a, b with
  | .number n1, .number n2 =>
      if fIsZero n2 then .error "Cannot divide by 0"
      else .ok (.number (fdiv n1 n2))
  | _, _ => .error "The division operator can only be used with numbers"

/-- `GC_THR_GROW = 1.5`: the threshold update `(len as f32 * 1.5) as u32`,
exact as `3·len/2` for every heap length below `2^23`. -/
def gcThrGrow (n : ℕ) : ℕ := 3 * n / 2

/-- `GC_THR_START`. -/
def gcThrStart : ℕ := 8000

/-- `VM::gc_point`: when the heap length exceeds the threshold, run the
collector (the abstract `collect`, standing for `GC::collect_garbage`
whose source is not provided) and set the threshold from the
PRE-collection heap length (`heap_len` is read before the pass). -/
def gc_point (collect : VMState → Heap) (s : VMState) : VMState :=
  if s.heap.mem.length > s.gc_thr then
    let heap_len := s.heap.mem.length
    { s with heap := collect s, gc_thr := gcThrGrow heap_len }
  else s

/-- The inner loop of `VM::close_upvalues`: scan the open-upvalue list
and close (to `boxId`) every cell whose location is `Stack slot`.
`none` is the panic of `get_upvalue_mut` on a missing/non-upvalue id. -/
def closeScan (slot boxId : ℕ) : Heap → List ℕ → Option Heap
  | h, [] => some h
  | h, u :: us =>
      match h.getUpValue u with
      | none => none
      | some (.stack l) =>
          closeScan slot boxId (if l = slot then h.setUpvLoc u (.heap boxId) else h) us
      | some (.heap _) => closeScan slot boxId h us

/-- The outer loop of `VM::close_upvalues`: for each captured slot `c`,
box the current stack value at `stack_base as u16 + c` and close every
open upvalue aliasing that slot.  `none` covers the source's panics
(u16 overflow of the slot computation, out-of-bounds stack read, and
the scan's panics). -/
def closeSlots (stack : Stack) (sb : ℕ) (opens : List ℕ) : Heap → List ℕ → Option Heap
  | h, [] => some h
  | h, c :: cs =>
      if sb % 65536 + c < 65536 then
        match getStack? stack (sb % 65536 + c) with
        | none => none
        | some cur =>
            let boxId := (h.allocVal cur).1
            let h1 := (h.allocVal cur).2
            match closeScan (sb % 65536 + c) boxId h1 opens with
            | none => none
            | some h2 => closeSlots stack sb opens h2 cs
      else none

/-- `VM::close_upvalues`, run on the stack as it stands after the return
value has been popped. -/
def closeUpvalues (cap : List ℕ) (sb : ℕ) (stack : Stack) (opens : List ℕ) (h : Heap) :
    Option Heap :=
  closeSlots stack sb opens h cap

/-- `VM::capture_upvalue`: a local descriptor allocates a fresh Open
cell at absolute slot `stack_base as u16 + id` (u16 overflow panics);
a non-local descriptor reuses the enclosing closure's cell by index
(missing index panics). -/
def captureUpvalue (frame : CallFrame) (h : Heap) (u : UpValueIndex) : Option (ℕ × Heap) :=
  if u.is_local then
    if frame.stack_base % 65536 + u.id < 65536 then
      some (h.alloc (.upValue (.stack (frame.stack_base % 65536 + u.id))))
    else none
  else
    (frame.clsr.upvalues.get? u.id).map (fun x => (x, h))

/-- The descriptor loop of the `Closure` arm: capture each upvalue in
order, returning the captured ids (which the source pushes both into the
new closure's vector and into the VM's open-upvalue list). -/
def captureAll (frame : CallFrame) : Heap → List UpValueIndex → Option (List ℕ × Heap)
  | h, [] => some ([], h)
  | h, u :: us =>
      match captureUpvalue frame h u with
      | none => none
      | some (uid, h1) =>
          match captureAll frame h1 us with
          | none => none
          | some (ids, h2) => some (uid :: ids, h2)

/-- The `Return` arm of `VM::run`: with a saved frame, pop the return
value, close upvalues, truncate to `stack_base`, CLEAR the whole
open-upvalue list (`truncate(0)`), restore the saved frame, push the
value back and run the GC point; with no saved frame, `break` — normal
termination with the state untouched. -/
def stepReturn (collect : VMState → Heap) (cap : List ℕ) (s : VMState) : Outcome :=
  match s.callstack with
  | [] => .halt s
  | f :: rest =>
      match s.stack with
      | [] => .panic
      | val :: st1 =>
          match closeUpvalues cap s.frame.stack_base st1 s.open_upvalues s.heap with
          | none => .panic
          | some h =>
              .ok (gc_point collect
                { frame := f, callstack := rest, open_upvalues := [],
                  stack := val :: truncateStack st1 s.frame.stack_base,
                  heap := h, gc_thr := s.gc_thr })

/-- The `FnCall` arm of `VM::run`: the callee sits at
`stack.len() as u16 - 1 - argc` (u16 underflow panics).  A heap
reference to a closure installs a new frame (`pc = 0`, `stack_base =
funcpos`) and saves the current one; a heap reference to anything else
errors; *any other value falls through the `if let` silently* — the
instruction is then a no-op. -/
def stepFnCall (argc : ℕ) (s : VMState) : Outcome :=
  if argc + 1 ≤ s.stack.length % 65536 then
    let funcpos := s.stack.length % 65536 - 1 - argc
    match getStack? s.stack funcpos with
    | none => .panic
    | some (.heapRef id) =>
        match s.heap.get id with
        | some (.closure c) =>
            .ok { s with frame := CallFrame.from_closure c funcpos,
                         callstack := s.frame :: s.callstack }
        | some _ => .err "Tried to call a value which isn't a function"
        | none => .panic
    | some _ => .ok s
  else .panic

/-- The `Closure` arm of `VM::run`: destination slot is
`id + stack_base as u16` (u16 overflow panics); the function constant
must be a `Value::Obj` (else `panic!()`); it is allocated, the
descriptors are captured in order (every captured id — fresh local or
reused non-local — is appended to the open-upvalue list), the closure is
allocated and stored into the destination slot. -/
def stepClosure (id constId : ℕ) (upvids : List UpValueIndex) (chk : Chunk) (s : VMState) :
    Outcome :=
  if id + s.frame.stack_base % 65536 < 65536 then
    match chk.consts.get? constId with
    | none => .panic
    | some (.obj o) =>
        let funcId := (s.heap.alloc o).1
        let h1 := (s.heap.alloc o).2
        match captureAll s.frame h1 upvids with
        | none => .panic
        | some (ids, h2) =>
            let clsrId := (h2.alloc (.closure ⟨funcId, ids⟩)).1
            let h3 := (h2.alloc (.closure ⟨funcId, ids⟩)).2
            match setStack? s.stack (id + s.frame.stack_base % 65536) (.heapRef clsrId) with
            | none => .panic
            | some st =>
                .ok { s with heap := h3, stack := st,
                             open_upvalues := s.open_upvalues ++ ids }
    | some _ => .panic
  else .panic

/-- Pop the right then the left operand, apply a fallible binary
operation, push the result (`Add`/`Subtract`/`Multiply`/`Divide` arms). -/
def binOp (f : Value → Value → Except String Value) (s : VMState) : Outcome :=
  match s.stack with
  | b :: a :: rest =>
      match f a b with
      | .ok v => .ok { s with stack := v :: rest }
      | .error e => .err e
  | _ => .panic

/-- Pop the right then the left operand and push a boolean
(`Equal`/`NotEqual`/`Greater`/`Less`/`GreaterEqual`/`LessEqual` arms). -/
def cmpOp (f : Value → Value → Bool) (s : VMState) : Outcome :=
  match s.stack with
  | b :: a :: rest => .ok { s with stack := .bool (f a b) :: rest }
  | _ => .panic

/-- Advance `cur_instr` by a jump delta. -/
def bumpBy (d : ℕ) (s : VMState) : VMState :=
  { s with frame := { s.frame with cur_instr := s.frame.cur_instr + d } }

/-- Dispatch of one fetched instruction (the `match` of `VM::run`);
`s` already has `cur_instr` advanced past the instruction, and `chk`,
`cap` are the active function's chunk and captured-slot list. -/
def execInstr (collect : VMState → Heap) (chk : Chunk) (cap : List ℕ)
    (i : Instruction) (s : VMState) : Outcome :=
  match i with
  | .Return => stepReturn collect cap s
  | .PushConstant id =>
      match chk.consts.get? id with
      | some c => .ok { s with stack := c :: s.stack }
      | none => .panic
  | .PushTrue => .ok { s with stack := .bool true :: s.stack }
  | .PushFalse => .ok { s with stack := .bool false :: s.stack }
  | .PushNull => .ok { s with stack := .null :: s.stack }
  | .Negate =>
      match s.stack with
      | v :: rest =>
          match toNumberV v with
          | .ok n => .ok { s with stack := .number (fneg n) :: rest }
          | .error e => .err e
      | [] => .panic
  | .ToNumber =>
      match s.stack with
      | v :: rest =>
          match toNumberV v with
          | .ok n => .ok { s with stack := .number n :: rest }
          | .error e => .err e
      | [] => .panic
  | .Not =>
      match s.stack with
      | v :: rest => .ok { s with stack := .bool (!isTruthy v) :: rest }
      | [] => .panic
  | .Add => binOp addValues s
  | .Subtract => binOp subValues s
  | .Multiply => binOp mulValues s
  | .Divide => binOp divValues s
  | .Equal => cmpOp (fun a b => isEqualTo a b) s
  | .NotEqual => cmpOp (fun a b => !isEqualTo a b) s
  | .GreaterEqual => cmpOp (fun a b => isEqualTo a b || isGreaterThan a b) s
  | .LessEqual => cmpOp (fun a b => isEqualTo a b || isGreaterThan b a) s
  | .Greater => cmpOp (fun a b => isGreaterThan a b) s
  | .Less => cmpOp (fun a b => isGreaterThan b a) s
  | .Trace =>
      match s.stack with
      | [] => .panic
      | _ => .ok s
  | .Pop =>
      match s.stack with
      | _ :: rest => .ok { s with stack := rest }
      | [] => .panic
  | .GetLocal id =>
      if id + s.frame.stack_base % 65536 < 65536 then
        match getStack? s.stack (id + s.frame.stack_base % 65536) with
        | some v => .ok { s with stack := v :: s.stack }
        | none => .panic
      else .panic
  | .GetUpValue id =>
      match s.frame.clsr.upvalues.get? id with
      | none => .panic
      | some uid =>
          match s.heap.getUpValue uid with
          | none => .panic
          | some loc =>
              match loc with
              | .stack slot =>
                  match getStack? s.stack slot with
                  | some v => .ok { s with stack := v :: s.stack }
                  | none => .panic
              | .heap hid =>
                  match s.heap.get hid with
                  | none => .panic
                  | some o =>
                      match o with
                      | .boxed v => .ok { s with stack := v :: s.stack }
                      | _ => .panic
  | .SetLocal id =>
      if id + s.frame.stack_base % 65536 < 65536 then
        match s.stack with
        | [] => .panic
        | v :: _ =>
            match setStack? s.stack (id + s.frame.stack_base % 65536) v with
            | some st => .ok { s with stack := st }
            | none => .panic
      else .panic
  | .SetUpValue id =>
      match s.stack with
      | [] => .panic
      | v :: _ =>
          match s.frame.clsr.upvalues.get? id with
          | none => .panic
          | some uid =>
              match s.heap.getUpValue uid with
              | none => .panic
              | some loc =>
                  match loc with
                  | .stack slot =>
                      match setStack? s.stack slot v with
                      | some st => .ok { s with stack := st }
                      | none => .panic
                  | .heap hid =>
                      match s.heap.setVal hid v with
                      | some h => .ok { s with heap := h }
                      | none => .panic
  | .Declare id =>
      if id + s.frame.stack_base % 65536 < 65536 then
        match s.stack with
        | [] => .panic
        | v :: rest =>
            match setStack? rest (id + s.frame.stack_base % 65536) v with
            | some st => .ok { s with stack := st }
            | none => .panic
      else .panic
  | .JumpIfFalsy d =>
      match s.stack with
      | [] => .panic
      | v :: _ => .ok (if isTruthy v then s else bumpBy d s)
  | .PopAndJumpIfFalsy d =>
      match s.stack with
      | [] => .panic
      | v :: rest =>
          .ok (if isTruthy v then { s with stack := rest }
               else bumpBy d { s with stack := rest })
  | .JumpIfTruthy d =>
      match s.stack with
      | [] => .panic
      | v :: _ => .ok (if isTruthy v then bumpBy d s else s)
  | .Jump d => .ok (bumpBy d s)
  | .FnCall argc => stepFnCall argc s
  | .Reserve n => .ok { s with stack := List.replicate n .uninitialized ++ s.stack }
  | .Closure id constId upvids => stepClosure id constId upvids chk s

/-- One iteration of the `loop` in `VM::run`: resolve the active
function (panic if the closure is dangling), advance `cur_instr`, fetch
the instruction at the old index (`next_instr`; a missing instruction is
the `unwrap` panic) and dispatch it. -/
def step (collect : VMState → Heap) (s : VMState) : Outcome :=
  match s.heap.getClsrFn s.frame.clsr with
  | none => .panic
  | some (chk, cap) =>
      match chk.tryGetInstr s.frame.cur_instr with
      | none => .panic
      | some i =>
          execInstr collect chk cap i
            { s with frame := { s.frame with cur_instr := s.frame.cur_instr + 1 } }

/-- The identity collector: a `GC::collect_garbage` that reclaims
nothing. -/
def collectId : VMState → Heap := fun s => s.heap

/-- A collector that reclaims every object (every object unmarked). -/
def collectAll : VMState → Heap := fun s => ⟨s.heap.next, []⟩

/-- A state whose chunk `instrs`/`consts` is installed as the function
object of the active (root) closure at heap id 0 — the shape `VM::new`
produces.  Used by the concrete scenarios below. -/
def mkState (instrs : List Instruction) (consts : List Value) (stack : Stack) : VMState :=
  { frame := ⟨⟨0, []⟩, 0, 0⟩, callstack := [], open_upvalues := [],
    stack := stack,
    heap := ⟨1, [(0, .function (.mk instrs consts) [])]⟩,
    gc_thr := gcThrStart }

theorem gc_point_frame (collect : VMState → Heap) (s : VMState) :
    (gc_point collect s).frame = s.frame := by
  unfold gc_point; split <;> rfl

theorem gc_point_stack (collect : VMState → Heap) (s : VMState) :
    (gc_point collect s).stack = s.stack := by
  unfold gc_point; split <;> rfl

theorem gc_point_callstack (collect : VMState → Heap) (s : VMState) :
    (gc_point collect s).callstack = s.callstack := by
  unfold gc_point; split <;> rfl

theorem gc_point_open_upvalues (collect : VMState → Heap) (s : VMState) :
    (gc_point collect s).open_upvalues = s.open_upvalues := by
  unfold gc_point; split <;> rfl

/-- Unfolding `step` once the active function and the fetched instruction
are known. -/
theorem step_fetch (collect : VMState → Heap) (s : VMState) (chk : Chunk) (cap : List ℕ)
    (i : Instruction)
    (hgf : s.heap.getClsrFn s.frame.clsr = some (chk, cap))
    (hi : chk.tryGetInstr s.frame.cur_instr = some i) :
    step collect s =
      execInstr collect chk cap i
        { s with frame := { s.frame with cur_instr := s.frame.cur_instr + 1 } } := by
  unfold step
  rw [hgf]
  simp only [hi]

/-- C7: for operands `a` (left, popped second) and `b` (right, popped
first), `GreaterEqual` pushes `Bool(equal(a,b) ∨ greater(a,b))` and
`LessEqual` pushes `Bool(equal(a,b) ∨ greater(b,a))`: both are defined
from the `Equal` and `Greater` primitives by exactly these equations
(`vm.rs` lines 284–295). -/
theorem c7_ge_le_from_eq_gt (collect : VMState → Heap) (s : VMState) (chk : Chunk)
    (cap : List ℕ) (a b : Value) (rest : Stack)
    (hgf : s.heap.getClsrFn s.frame.clsr = some (chk, cap))
    (hstk : s.stack = b :: a :: rest) :
    (chk.tryGetInstr s.frame.cur_instr = some .GreaterEqual →
      step collect s =
        .ok { s with frame := { s.frame with cur_instr := s.frame.cur_instr + 1 },
                     stack := .bool (isEqualTo a b || isGreaterThan a b) :: rest }) ∧
    (chk.tryGetInstr s.frame.cur_instr = some .LessEqual →
      step collect s =
        .ok { s with frame := { s.frame with cur_instr := s.frame.cur_instr + 1 },
                     stack := .bool (isEqualTo a b || isGreaterThan b a) :: rest }) := by
  constructor <;> intro hi <;>
    rw [step_fetch collect s chk cap _ hgf hi] <;>
    simp only [execInstr, cmpOp, hstk]

/-- Witness for C7 at a concrete comparison `1 ≥ 2` (false). -/
theorem c7_witness :
    step collectId (mkState [.GreaterEqual] [] [.number (.num 2), .number (.num 1)]) =
      .ok { mkState [.GreaterEqual] [] [.number (.num 2), .number (.num 1)] with
            frame := ⟨⟨0, []⟩, 1, 0⟩, stack := [.bool false] } := by
  have h := (c7_ge_le_from_eq_gt collectId
      (mkState [.GreaterEqual] [] [.number (.num 2), .number (.num 1)])
      (.mk [.GreaterEqual] []) [] (.number (.num 1)) (.number (.num 2)) [] rfl rfl).1 rfl
  exact h

/-- C9: `Return` with an empty call stack (the root frame) terminates
normally via the loop's `break`: no value is popped, no upvalue is
closed, the stack is not truncated — the final state differs from the
state before the instruction only in the advanced `cur_instr`, so the
evaluation stack (with the program's final value on top), heap and
open-upvalue list are untouched (`vm.rs` lines 164–178, root case). -/
theorem c9_root_return (collect : VMState → Heap) (s : VMState) (chk : Chunk) (cap : List ℕ)
    (hgf : s.heap.getClsrFn s.frame.clsr = some (chk, cap))
    (hi : chk.tryGetInstr s.frame.cur_instr = some .Return)
    (hroot : s.callstack = []) :
    step collect s =
      .halt { s with frame := { s.frame with cur_instr := s.frame.cur_instr + 1 } } := by
  rw [step_fetch collect s chk cap _ hgf hi]
  simp only [execInstr, stepReturn, hroot]

/-- Witness for C9: a root-frame `Return` over stack `[Number 5]`. -/
theorem c9_witness :
    step collectId (mkState [.Return] [] [.number (.num 5)]) =
      .halt { mkState [.Return] [] [.number (.num 5)] with frame := ⟨⟨0, []⟩, 1, 0⟩ } :=
  c9_root_return collectId (mkState [.Return] [] [.number (.num 5)])
    (.mk [.Return] []) [] rfl rfl rfl

/-- C8: with two `Number` operands `Divide` fails with the
divide-by-zero error exactly when the divisor (the right operand, top of
stack) is `== 0.0`, and otherwise pushes the quotient — including
quotients that are `±inf` or `NaN`; any other operand pair fails with
the type-mismatch error (`vm.rs` lines 256–271). -/
theorem c8_divide (collect : VMState → Heap) (s : VMState) (chk : Chunk) (cap : List ℕ)
    (a b : Value) (rest : Stack)
    (hgf : s.heap.getClsrFn s.frame.clsr = some (chk, cap))
    (hi : chk.tryGetInstr s.frame.cur_instr = some .Divide)
    (hstk : s.stack = b :: a :: rest) :
    (∀ n1 n2, a = .number n1 → b = .number n2 →
      (fIsZero n2 = true → step collect s = .err "Cannot divide by 0") ∧
      (fIsZero n2 = false →
        step collect s =
          .ok { s with frame := { s.frame with cur_instr := s.frame.cur_instr + 1 },
                       stack := .number (fdiv n1 n2) :: rest })) ∧
    ((∀ n, a ≠ .number n) ∨ (∀ n, b ≠ .number n) →
      step collect s = .err "The division operator can only be used with numbers") := by
  rw [step_fetch collect s chk cap _ hgf hi]
  simp only [execInstr, binOp, hstk]
  constructor
  · rintro n1 n2 rfl rfl
    constructor <;> intro hz <;> simp only [divValues, hz] <;> rfl
  · rintro (ha | hb)
    · cases a <;> simp only [divValues] <;> first
        | rfl
        | exact absurd rfl (ha _)
    · cases b <;> first
        | (cases a <;> simp only [divValues] <;> rfl)
        | exact absurd rfl (hb _)

/-- Witness for C8: `NaN / 1` succeeds with a `NaN` quotient (non-zero
divisor), and `1 / 0` fails with the divide-by-zero error. -/
theorem c8_witness :
    step collectId (mkState [.Divide] [] [.number (.num 1), .number .nan]) =
      .ok { mkState [.Divide] [] [.number (.num 1), .number .nan] with
            frame := ⟨⟨0, []⟩, 1, 0⟩, stack := [.number .nan] } ∧
    step collectId (mkState [.Divide] [] [.number (.num 0), .number (.num 1)]) =
      .err "Cannot divide by 0" := by
  constructor
  · exact ((c8_divide collectId (mkState [.Divide] [] [.number (.num 1), .number .nan])
      (.mk [.Divide] []) [] (.number .nan) (.number (.num 1)) [] rfl rfl rfl).1
      .nan (.num 1) rfl rfl).2 rfl
  · exact ((c8_divide collectId (mkState [.Divide] [] [.number (.num 0), .number (.num 1)])
      (.mk [.Divide] []) [] (.number (.num 1)) (.number (.num 0)) [] rfl rfl rfl).1
      (.num 1) (.num 0) rfl rfl).1 (by decide)

/-- C4 counterexample: the claim predicts `Add(Number 1, String "x") =
"1x"` (string on its literal side, i.e. `to_string(left) ++ right` when
the string is the right operand) and `Add(s, "") == s` /
`Add("", s) == s` for every `to_string`-able `s`.  The code's or-pattern
`(String(s1), v) | (v, String(s1))` always concatenates the matched
string FIRST: `Add(Number 1, String "x")` yields `"x1"`, and
`Add(String "", Number 1)` yields `String "1" ≠ Number 1`. -/
theorem c4_counterexample :
    addValues (.number (.num 1)) (.str "x") = .ok (.str "x1") ∧
    Value.str "x1" ≠ .str ("1" ++ "x") ∧
    addValues (.str "") (.number (.num 1)) = .ok (.str "1") ∧
    Value.str "1" ≠ .number (.num 1) := by
  refine ⟨rfl, fun h => ?_, rfl, fun h => ?_⟩
  · injection h with h'
    exact absurd h' (by decide)
  · exact Value.noConfusion h

/-- C4 amended: when exactly one operand of `Add` is a `String` and the
other's `to_string` succeeds, the result is the STRING OPERAND'S CONTENT
first, concatenated with the other operand's `to_string` — on both
sides (the or-pattern puts the matched string on the left of the `+`).
Consequently `Add("", s) == s` and `Add(s, "") == s` hold for String
`s`; for a non-String left operand, `Add(s, "")` is
`String(to_string(s))` instead (`vm.rs` lines 211–229). -/
theorem c4_add_string (a : Value) :
    (∀ s1 s2 b, a = .str s1 → toStringV b = .ok s2 →
        addValues a b = .ok (.str (s1 ++ s2))) ∧
    (∀ s1 s2 b, b = .str s1 → (∀ t, a ≠ .str t) → toStringV a = .ok s2 →
        addValues a b = .ok (.str (s1 ++ s2))) ∧
    (∀ s : String, addValues (.str "") (.str s) = .ok (.str s) ∧
        addValues (.str s) (.str "") = .ok (.str s)) := by
  refine ⟨?_, ?_, ?_⟩
  · rintro s1 s2 b rfl hb
    cases b <;> simp_all [addValues, toStringV]
  · rintro s1 s2 b rfl hnot ha
    cases a <;> simp_all [addValues, toStringV]
  · intro u
    constructor <;> simp [addValues, toStringV]

/-- Witness for C4 (amended): a string on the left concatenates left-first;
a string on the right also puts its own content first. -/
theorem c4_witness :
    addValues (.str "ab") (.str "cd") = .ok (.str ("ab" ++ "cd")) ∧
    addValues (.number (.num 2)) (.str "x") = .ok (.str ("x" ++ "2")) :=
  ⟨(c4_add_string (.str "ab")).1 "ab" "cd" (.str "cd") rfl rfl,
   (c4_add_string (.number (.num 2))).2.1 "x" "2" (.str "x") rfl
     (fun _ h => Value.noConfusion h) rfl⟩

/-- `FnCall 0` with a non-callable callee: `Number 1` sits at the callee
position. -/
def c1s : VMState := mkState [.FnCall 0] [] [.number (.num 1)]

/-- C1 counterexample: the claim says a callee that is not a closure
heap reference fails with `NotCallable`.  With `FnCall(0)` and callee
`Number 1` (read at stack position `len − 1 − argc = 0`), the `if let
Value::Heap(id)` in the `FnCall` arm falls through silently and the
dispatch succeeds as a no-op: the outcome is `ok` with only `cur_instr`
advanced — no error at all (`vm.rs` lines 386–406). -/
theorem c1_counterexample :
    getStack? c1s.stack (c1s.stack.length - 1 - 0) = some (.number (.num 1)) ∧
    step collectId c1s = .ok { c1s with frame := ⟨⟨0, []⟩, 1, 0⟩ } :=
  ⟨rfl, rfl⟩

/-- C1 amended: `FnCall(argc)` reads the callee at stack position
`len − 1 − argc`.  If it is a heap reference to a closure, a new frame
with `stack_base = position_of_callee` and `pc = 0` is installed and the
current frame is pushed onto the call stack.  If it is a heap reference
to a non-closure object, execution fails with the `NotCallable` error.
If it is NOT a heap reference at all, the instruction does nothing (the
`if let` falls through): no error is raised (`vm.rs` lines 386–406). -/
theorem c1_fncall (collect : VMState → Heap) (s : VMState) (chk : Chunk) (cap : List ℕ)
    (argc : ℕ) (v : Value)
    (hgf : s.heap.getClsrFn s.frame.clsr = some (chk, cap))
    (hi : chk.tryGetInstr s.frame.cur_instr = some (.FnCall argc))
    (hlen : s.stack.length < 65536)
    (hargs : argc + 1 ≤ s.stack.length)
    (hv : getStack? s.stack (s.stack.length - 1 - argc) = some v) :
    (∀ id c, v = .heapRef id → s.heap.get id = some (.closure c) →
      step collect s =
        .ok { s with frame := ⟨c, 0, s.stack.length - 1 - argc⟩,
                     callstack :=
                       { s.frame with cur_instr := s.frame.cur_instr + 1 } ::
                         s.callstack }) ∧
    (∀ id o, v = .heapRef id → s.heap.get id = some o → (∀ c, o ≠ .closure c) →
      step collect s = .err "Tried to call a value which isn't a function") ∧
    ((∀ id, v ≠ .heapRef id) →
      step collect s =
        .ok { s with frame := { s.frame with cur_instr := s.frame.cur_instr + 1 } }) := by
  rw [step_fetch collect s chk cap _ hgf hi]
  have hmod : s.stack.length % 65536 = s.stack.length := Nat.mod_eq_of_lt hlen
  simp only [execInstr, stepFnCall, hmod]
  rw [if_pos hargs]
  simp only [hv]
  refine ⟨?_, ?_, ?_⟩
  · rintro id c rfl hc
    simp only [hc, CallFrame.from_closure]
  · rintro id o rfl ho hnc
    cases o <;> simp only [ho] <;> first
      | rfl
      | exact absurd rfl (hnc _)
  · intro hnr
    cases v <;> first
      | rfl
      | exact absurd rfl (hnr _)

/-- A well-formed call: the callee at position 0 is a heap reference to
the closure at id 2 over the function at id 1. -/
def c1sW : VMState :=
  { frame := ⟨⟨0, []⟩, 0, 0⟩, callstack := [], open_upvalues := [],
    stack := [.heapRef 2],
    heap := ⟨3, [(0, .function (.mk [.FnCall 0] []) []),
                 (1, .function (.mk [.Return] []) []),
                 (2, .closure ⟨1, []⟩)]⟩,
    gc_thr := gcThrStart }

/-- Witness for C1 (amended): calling a genuine closure installs the new
frame (`pc = 0`, `stack_base = 0`) and saves the caller. -/
theorem c1_witness :
    step collectId c1sW =
      .ok { c1sW with frame := ⟨⟨1, []⟩, 0, 0⟩, callstack := [⟨⟨0, []⟩, 1, 0⟩] } :=
  (c1_fncall collectId c1sW (.mk [.FnCall 0] []) [] 0 (.heapRef 2) rfl rfl
    (by decide) (by decide) rfl).1 2 ⟨1, []⟩ rfl rfl

/-- A state at a GC point: two heap objects, threshold 1. -/
def c3s : VMState :=
  { frame := ⟨⟨0, []⟩, 0, 0⟩, callstack := [], open_upvalues := [], stack := [],
    heap := ⟨2, [(0, .boxed .null), (1, .boxed .null)]⟩, gc_thr := 1 }

/-- An `FnCall` dispatch (callee is a real closure) in a state whose heap
size (3) already exceeds the threshold (0). -/
def c3call : VMState :=
  { frame := ⟨⟨0, []⟩, 0, 0⟩, callstack := [], open_upvalues := [],
    stack := [.heapRef 2],
    heap := ⟨3, [(0, .function (.mk [.FnCall 0] []) []),
                 (1, .function (.mk [.Return] []) []),
                 (2, .closure ⟨1, []⟩)]⟩,
    gc_thr := 0 }

/-- C3 counterexample: (a) after a pass that empties the heap
(`collectAll`, post-size 0) the threshold becomes `gcThrGrow 2 = 3`,
computed from the PRE-collection heap size — not `post_heap_size × GROW
= 0` as the claim states (`heap_len` is captured before
`collect_garbage` in `VM::gc_point`); (b) executing `FnCall` while the
heap size (3) exceeds the threshold (0) triggers no pass at all — the
heap and threshold are unchanged (the only `gc_point` call site is in
the `Return` arm; the loop-top call is commented out). -/
theorem c3_counterexample :
    (gc_point collectAll c3s).gc_thr = gcThrGrow 2 ∧
    (gc_point collectAll c3s).heap.mem.length = 0 ∧
    gcThrGrow 2 ≠ gcThrGrow 0 ∧
    c3call.heap.mem.length > c3call.gc_thr ∧
    (step collectAll c3call).stateOf?.map (fun t => (t.heap.mem.length, t.gc_thr)) =
      some (3, 0) :=
  ⟨rfl, rfl, by decide, by decide, rfl⟩

/-- C3 amended: a GC pass is triggered only at the GC point in the
`Return` arm (there is no GC point after `FnCall`): `gc_point` collects
exactly when the heap size exceeds the threshold, and then sets the
threshold to `pre_heap_size × GROW` where `pre_heap_size` is the heap
size BEFORE the pass and `GROW = 1.5 ≥ 1.0`; a non-root `Return`
dispatch ends by running `gc_point`, while an `FnCall` dispatch leaves
the heap and the threshold untouched (`vm.rs` lines 130–140, 160–178). -/
theorem c3_gc_points (collect : VMState → Heap) (s : VMState) :
    (s.heap.mem.length > s.gc_thr →
      gc_point collect s =
        { s with heap := collect s, gc_thr := gcThrGrow s.heap.mem.length }) ∧
    (¬ s.heap.mem.length > s.gc_thr → gc_point collect s = s) ∧
    (∀ chk cap argc, s.heap.getClsrFn s.frame.clsr = some (chk, cap) →
      chk.tryGetInstr s.frame.cur_instr = some (.FnCall argc) →
      ∀ t, (step collect s).stateOf? = some t →
        t.heap = s.heap ∧ t.gc_thr = s.gc_thr) ∧
    (∀ chk cap f rest val st1 h2, s.heap.getClsrFn s.frame.clsr = some (chk, cap) →
      chk.tryGetInstr s.frame.cur_instr = some .Return →
      s.callstack = f :: rest → s.stack = val :: st1 →
      closeUpvalues cap s.frame.stack_base st1 s.open_upvalues s.heap = some h2 →
      step collect s =
        .ok (gc_point collect
          { frame := f, callstack := rest, open_upvalues := [],
            stack := val :: truncateStack st1 s.frame.stack_base,
            heap := h2, gc_thr := s.gc_thr })) := by
  refine ⟨?_, ?_, ?_, ?_⟩
  · intro hgt
    unfold gc_point
    rw [if_pos hgt]
  · intro hle
    unfold gc_point
    rw [if_neg hle]
  · intro chk cap argc hgf hi t ht
    rw [step_fetch collect s chk cap _ hgf hi] at ht
    simp only [execInstr, stepFnCall] at ht
    split at ht
    · split at ht
      · simp [Outcome.stateOf?] at ht
      · split at ht
        · simp only [Outcome.stateOf?, Option.some.injEq] at ht
          subst ht
          exact ⟨rfl, rfl⟩
        · simp [Outcome.stateOf?] at ht
        · simp [Outcome.stateOf?] at ht
      · simp only [Outcome.stateOf?, Option.some.injEq] at ht
        subst ht
        exact ⟨rfl, rfl⟩
    · simp [Outcome.stateOf?] at ht
  · intro chk cap f rest val st1 h2 hgf hi hcs hstk hcl
    rw [step_fetch collect s chk cap _ hgf hi]
    simp only [execInstr, stepReturn, hcs, hstk, closeUpvalues]
    simp only [closeUpvalues] at hcl
    rw [hcl]

/-- Witness for C3 (amended): the pass at `c3s` (heap 2 > threshold 1)
collects and re-seeds the threshold from the pre-collection size. -/
theorem c3_witness :
    gc_point collectAll c3s =
      { c3s with heap := collectAll c3s, gc_thr := gcThrGrow 2 } :=
  (c3_gc_points collectAll c3s).1 (by decide)

/-- Non-root `Return` dispatch, unfolded: pop the return value, close
upvalues, truncate, clear the open-upvalue list, restore the saved
frame, re-push the value, run the GC point. -/
theorem step_return_nonroot (collect : VMState → Heap) (s : VMState) (chk : Chunk)
    (cap : List ℕ) (f : CallFrame) (rest : List CallFrame) (val : Value) (st1 : Stack)
    (h2 : Heap)
    (hgf : s.heap.getClsrFn s.frame.clsr = some (chk, cap))
    (hi : chk.tryGetInstr s.frame.cur_instr = some .Return)
    (hcs : s.callstack = f :: rest)
    (hstk : s.stack = val :: st1)
    (hcl : closeUpvalues cap s.frame.stack_base st1 s.open_upvalues s.heap = some h2) :
    step collect s =
      .ok (gc_point collect
        { frame := f, callstack := rest, open_upvalues := [],
          stack := val :: truncateStack st1 s.frame.stack_base,
          heap := h2, gc_thr := s.gc_thr }) := by
  rw [step_fetch collect s chk cap _ hgf hi]
  simp only [execInstr, stepReturn, hcs, hstk, closeUpvalues]
  simp only [closeUpvalues] at hcl
  rw [hcl]

theorem truncateStack_length (s : Stack) (n : ℕ) (h : n ≤ s.length) :
    (truncateStack s n).length = n := by
  unfold truncateStack
  rw [List.length_drop]
  exact Nat.sub_sub_self h

/-- C5: after a `Return` in a non-root frame, the evaluation stack length
is exactly the returning frame's `stack_base + 1`, the popped return
value is on top (it replaces the callee and its locals), and the
previously saved frame is the active one (`vm.rs` lines 164–178).  The
hypotheses state that the VM is in a well-formed return state: a saved
frame exists, the stack is non-empty (else `pop_stack` panics), it
reaches down to `stack_base`, and `close_upvalues` does not panic. -/
theorem c5_return_stack (collect : VMState → Heap) (s : VMState) (chk : Chunk)
    (cap : List ℕ) (f : CallFrame) (rest : List CallFrame) (val : Value) (st1 : Stack)
    (h2 : Heap)
    (hgf : s.heap.getClsrFn s.frame.clsr = some (chk, cap))
    (hi : chk.tryGetInstr s.frame.cur_instr = some .Return)
    (hcs : s.callstack = f :: rest)
    (hstk : s.stack = val :: st1)
    (hsb : s.frame.stack_base ≤ st1.length)
    (hcl : closeUpvalues cap s.frame.stack_base st1 s.open_upvalues s.heap = some h2) :
    ∃ s', step collect s = .ok s' ∧
      s'.stack.length = s.frame.stack_base + 1 ∧
      s'.stack.head? = some val ∧
      s'.frame = f := by
  refine ⟨_, step_return_nonroot collect s chk cap f rest val st1 h2 hgf hi hcs hstk hcl,
    ?_, ?_, ?_⟩
  · rw [gc_point_stack]
    simp only [List.length_cons, truncateStack_length st1 s.frame.stack_base hsb]
  · rw [gc_point_stack]
    rfl
  · rw [gc_point_frame]

/-- A non-root return state: the active frame (function id 1, no
captures, `stack_base = 1`) returns `Number 7` to the saved root frame;
the callee reference sits below `stack_base`. -/
def c5sW : VMState :=
  { frame := ⟨⟨1, []⟩, 0, 1⟩, callstack := [⟨⟨0, []⟩, 1, 0⟩], open_upvalues := [],
    stack := [.number (.num 7), .heapRef 2, .null],
    heap := ⟨3, [(0, .function (.mk [.FnCall 0] []) []),
                 (1, .function (.mk [.Return] []) []),
                 (2, .closure ⟨1, []⟩)]⟩,
    gc_thr := gcThrStart }

/-- Witness for C5 at the concrete return state `c5sW`
(`stack_base = 1`, three stack values): the stack shrinks to length 2
with `Number 7` on top and the root frame restored. -/
theorem c5_witness :
    ∃ s', step collectId c5sW = .ok s' ∧
      s'.stack.length = c5sW.frame.stack_base + 1 ∧
      s'.stack.head? = some (.number (.num 7)) ∧
      s'.frame = ⟨⟨0, []⟩, 1, 0⟩ := by
  have h := c5_return_stack collectId c5sW (.mk [.Return] []) [] ⟨⟨0, []⟩, 1, 0⟩ []
    (.number (.num 7)) [.heapRef 2, .null] c5sW.heap rfl rfl rfl rfl (by decide) rfl
  exact h

/-- A `Closure` instruction whose single upvalue descriptor is NON-local
(`is_local = false`, index 0): the enclosing closure's upvalue id 7,
whose cell is already Closed (`Heap 3`). -/
def c2s : VMState :=
  { frame := ⟨⟨0, [7]⟩, 0, 0⟩, callstack := [], open_upvalues := [],
    stack := [.null],
    heap := ⟨10, [(0, .function
                    (.mk [.Closure 0 0 [⟨false, 0⟩]]
                         [.obj (.function (.mk [.Return] []) [])]) []),
                  (7, .upValue (.heap 3)),
                  (3, .boxed .null)]⟩,
    gc_thr := gcThrStart }

/-- C2 counterexample: the claim says the `Closure` instruction records
ONLY newly allocated local (Open) upvalues in the open-upvalue list.
Executing `Closure` at `c2s` — whose single descriptor is non-local and
resolves to the REUSED upvalue id 7, a cell that is already Closed
(`Heap 3`) — nevertheless appends 7 to the list (`vm.rs` lines 425–433
push every captured id), so afterwards the list contains an id that is
not Open. -/
theorem c2_counterexample :
    c2s.heap.getUpValue 7 = some (.heap 3) ∧
    (step collectId c2s).stateOf?.map
        (fun t => (t.open_upvalues, t.heap.getUpValue 7)) =
      some ([7], some (.heap 3)) :=
  ⟨rfl, rfl⟩

/-- C2 amended: the `Closure` instruction appends EVERY captured upvalue
id to the open-upvalue list, in descriptor order — freshly allocated
local (Open) ones and reused non-local ones (which may already be
Closed) alike; and a non-root `Return` clears the ENTIRE open-upvalue
list (`open_upvalues.truncate(0)`), dropping also Open upvalues owned
by outer live frames, not only the entries just closed (`vm.rs` lines
164–178 and 411–444). -/
theorem c2_open_list (collect : VMState → Heap) (s : VMState) (chk : Chunk) (cap : List ℕ) :
    (∀ id constId upvids o ids h2 st,
      s.heap.getClsrFn s.frame.clsr = some (chk, cap) →
      chk.tryGetInstr s.frame.cur_instr = some (.Closure id constId upvids) →
      id + s.frame.stack_base % 65536 < 65536 →
      chk.consts.get? constId = some (.obj o) →
      captureAll { s.frame with cur_instr := s.frame.cur_instr + 1 }
          (s.heap.alloc o).2 upvids = some (ids, h2) →
      setStack? s.stack (id + s.frame.stack_base % 65536)
          (.heapRef (h2.alloc (.closure ⟨(s.heap.alloc o).1, ids⟩)).1) = some st →
      step collect s =
        .ok { s with frame := { s.frame with cur_instr := s.frame.cur_instr + 1 },
                     heap := (h2.alloc (.closure ⟨(s.heap.alloc o).1, ids⟩)).2,
                     stack := st,
                     open_upvalues := s.open_upvalues ++ ids }) ∧
    (∀ f rest val st1 h2,
      s.heap.getClsrFn s.frame.clsr = some (chk, cap) →
      chk.tryGetInstr s.frame.cur_instr = some .Return →
      s.callstack = f :: rest → s.stack = val :: st1 →
      closeUpvalues cap s.frame.stack_base st1 s.open_upvalues s.heap = some h2 →
      ∀ t, (step collect s).stateOf? = some t → t.open_upvalues = []) := by
  constructor
  · intro id constId upvids o ids h2 st hgf hi hdest hconst hcapt hset
    rw [step_fetch collect s chk cap _ hgf hi]
    simp only [execInstr, stepClosure]
    rw [if_pos hdest, hconst]
    simp only [hcapt, hset]
  · intro f rest val st1 h2 hgf hi hcs hstk hcl t ht
    rw [step_return_nonroot collect s chk cap f rest val st1 h2 hgf hi hcs hstk hcl] at ht
    simp only [Outcome.stateOf?, Option.some.injEq] at ht
    subst ht
    rw [gc_point_open_upvalues]

/-- A `Closure` instruction with one LOCAL descriptor over slot 0. -/
def c2sW : VMState :=
  { frame := ⟨⟨0, []⟩, 0, 0⟩, callstack := [], open_upvalues := [],
    stack := [.null],
    heap := ⟨10, [(0, .function
                    (.mk [.Closure 0 0 [⟨true, 0⟩]]
                         [.obj (.function (.mk [.Return] []) [])]) [])]⟩,
    gc_thr := gcThrStart }

/-- Witness for C2 (amended): a local capture allocates the Open cell 11
(function object takes id 10) and appends it to the open-upvalue list. -/
theorem c2_witness :
    step collectId c2sW =
      .ok { c2sW with frame := ⟨⟨0, []⟩, 1, 0⟩,
                      heap := ((c2sW.heap.alloc
                          (.function (.mk [.Return] []) [])).2.alloc
                            (.upValue (.stack 0))).2.alloc
                                (.closure ⟨10, [11]⟩) |>.2,
                      stack := [.heapRef 12],
                      open_upvalues := [11] } := by
  have h := (c2_open_list collectId c2sW
      (.mk [.Closure 0 0 [⟨true, 0⟩]] [.obj (.function (.mk [.Return] []) [])]) []).1
    0 0 [⟨true, 0⟩] (.function (.mk [.Return] []) []) [11]
    ((c2sW.heap.alloc (.function (.mk [.Return] []) [])).2.alloc (.upValue (.stack 0))).2
    [.heapRef 12] rfl rfl (by decide) rfl rfl rfl
  exact h

theorem binOp_ne_halt (f : Value → Value → Except String Value) (s : VMState)
    (t : VMState) : binOp f s ≠ .halt t := by
  intro h
  unfold binOp at h
  repeat' split at h
  all_goals simp at h

theorem cmpOp_ne_halt (f : Value → Value → Bool) (s : VMState) (t : VMState) :
    cmpOp f s ≠ .halt t := by
  intro h
  unfold cmpOp at h
  repeat' split at h
  all_goals simp at h

theorem stepFnCall_ne_halt (argc : ℕ) (s : VMState) (t : VMState) :
    stepFnCall argc s ≠ .halt t := by
  intro h
  unfold stepFnCall at h
  simp only [] at h
  split at h
  · rcases hv : getStack? s.stack (s.stack.length % 65536 - 1 - argc) with - | v
    · rw [hv] at h
      simp at h
    · rw [hv] at h
      cases v
      case heapRef id =>
        simp only [] at h
        rcases hg : s.heap.get id with - | o
        · simp [hg] at h
        · cases o <;> simp [hg] at h
      all_goals simp at h
  · simp at h

theorem stepClosure_ne_halt (id constId : ℕ) (upvids : List UpValueIndex) (chk : Chunk)
    (s : VMState) (t : VMState) : stepClosure id constId upvids chk s ≠ .halt t := by
  intro h
  unfold stepClosure at h
  split at h
  · rcases hc : chk.consts.get? constId with - | c
    · rw [hc] at h
      simp at h
    · rw [hc] at h
      cases c
      case obj o =>
        simp only at h
        rcases hcap : captureAll s.frame (s.heap.alloc o).2 upvids with - | ⟨ids, h2⟩
        · simp [hcap] at h
        · simp only [hcap] at h
          rcases hset : setStack? s.stack (id + s.frame.stack_base % 65536)
              (.heapRef (h2.alloc (.closure ⟨(s.heap.alloc o).1, ids⟩)).1) with - | st
          · simp [hset] at h
          · simp [hset] at h
      all_goals simp at h
  · simp at h

theorem stepReturn_halt_iff (collect : VMState → Heap) (cap : List ℕ) (s : VMState)
    (t : VMState) (h : stepReturn collect cap s = .halt t) :
    s.callstack = [] ∧ t = s := by
  unfold stepReturn at h
  split at h
  · rename_i hcs
    simp only [Outcome.halt.injEq] at h
    exact ⟨hcs, h.symm⟩
  · repeat' split at h
    all_goals simp at h

/-- C10: normal termination happens only by a root-frame `Return`.
(i) When the program counter has moved past the last instruction of the
active chunk, `try_get_instr` yields nothing and the `unwrap` in the
loop panics — the interpreter neither halts ok nor returns an error.
(ii) Conversely, every `halt` outcome comes from fetching `Return` with
an empty call stack (`vm.rs` lines 49–52 and 162). -/
theorem c10_normal_termination (collect : VMState → Heap) (s : VMState) :
    (∀ chk cap, s.heap.getClsrFn s.frame.clsr = some (chk, cap) →
      chk.instrs.length ≤ s.frame.cur_instr → step collect s = .panic) ∧
    (∀ t, step collect s = .halt t →
      ∃ chk cap, s.heap.getClsrFn s.frame.clsr = some (chk, cap) ∧
        chk.tryGetInstr s.frame.cur_instr = some .Return ∧
        s.callstack = [] ∧
        t = { s with frame := { s.frame with cur_instr := s.frame.cur_instr + 1 } }) := by
  constructor
  · intro chk cap hgf hpast
    unfold step
    rw [hgf]
    have : chk.tryGetInstr s.frame.cur_instr = none := by
      unfold Chunk.tryGetInstr
      exact List.get?_eq_none.mpr hpast
    simp only [this]
  · intro t h
    unfold step at h
    rcases hgf : s.heap.getClsrFn s.frame.clsr with - | ⟨chk, cap⟩
    · rw [hgf] at h
      simp at h
    · simp only [hgf] at h
      rcases hfetch : chk.tryGetInstr s.frame.cur_instr with - | i
      · simp [hfetch] at h
      · simp only [hfetch] at h
        cases i
        case Return =>
          simp only [execInstr] at h
          obtain ⟨hcs, ht⟩ := stepReturn_halt_iff collect cap _ t h
          exact ⟨chk, cap, rfl, hfetch, hcs, ht⟩
        all_goals
          simp only [execInstr] at h
          first
            | exact absurd h (binOp_ne_halt _ _ _)
            | exact absurd h (cmpOp_ne_halt _ _ _)
            | exact absurd h (stepFnCall_ne_halt _ _ _)
            | exact absurd h (stepClosure_ne_halt _ _ _ _ _ _)
            | (repeat' split at h
               all_goals simp at h)

/-- Witness for C10: with `cur_instr = 1` one past the single-instruction
chunk `[Return]`, the fetch fails and the interpreter panics. -/
theorem c10_witness :
    step collectId { mkState [.Return] [] [] with frame := ⟨⟨0, []⟩, 1, 0⟩ } = .panic :=
  (c10_normal_termination collectId
    { mkState [.Return] [] [] with frame := ⟨⟨0, []⟩, 1, 0⟩ }).1
    (.mk [.Return] []) [] rfl (by decide)

/-- Index of the first captured slot `c` in a list with
`stack_base as u16 + c = l` — the iteration of `close_upvalues` that
closes an open upvalue sitting at absolute slot `l`. -/
def slotIdx (sb l : ℕ) : List ℕ → Option ℕ
  | [] => none
  | c :: cs => if sb % 65536 + c = l then some 0 else (slotIdx sb l cs).map (· + 1)

theorem find?_map_upd (g : ObjType) (u id : ℕ) (hne : id ≠ u) :
    ∀ l : List (ℕ × ObjType),
      (l.map (fun p => if p.1 = u then (p.1, g) else p)).find? (fun p => p.1 = id) =
        l.find? (fun p => p.1 = id)
  | [] => rfl
  | p :: l => by
      by_cases hp : p.1 = id
      · have hpu : ¬ p.1 = u := fun hc => hne (hp ▸ hc)
        rw [List.map_cons, if_neg hpu,
          List.find?_cons_of_pos _ (by simp [hp]),
          List.find?_cons_of_pos _ (by simp [hp])]
      · rw [List.map_cons]
        rw [List.find?_cons_of_neg _ (by split <;> simp [hp]),
          List.find?_cons_of_neg _ (by simp [hp])]
        exact find?_map_upd g u id hne l

theorem find?_map_upd_self (g : ObjType) (u : ℕ) :
    ∀ l : List (ℕ × ObjType),
      (l.map (fun p => if p.1 = u then (p.1, g) else p)).find? (fun p => p.1 = u) =
        (l.find? (fun p => p.1 = u)).map (fun p => (p.1, g))
  | [] => rfl
  | p :: l => by
      by_cases hp : p.1 = u
      · rw [List.map_cons, if_pos hp,
          List.find?_cons_of_pos _ (by simp [hp]),
          List.find?_cons_of_pos _ (by simp [hp])]
        rfl
      · rw [List.map_cons, if_neg hp,
          List.find?_cons_of_neg _ (by simp [hp]),
          List.find?_cons_of_neg _ (by simp [hp])]
        exact find?_map_upd_self g u l

theorem Heap.setUpvLoc_next (h : Heap) (u : ℕ) (loc : UpValueLocation) :
    (h.setUpvLoc u loc).next = h.next := rfl

theorem Heap.setUpvLoc_length (h : Heap) (u : ℕ) (loc : UpValueLocation) :
    (h.setUpvLoc u loc).mem.length = h.mem.length := by
  simp [Heap.setUpvLoc]

theorem Heap.get_setUpvLoc_ne (h : Heap) (u id : ℕ) (loc : UpValueLocation)
    (hne : id ≠ u) : (h.setUpvLoc u loc).get id = h.get id := by
  unfold Heap.setUpvLoc Heap.get
  rw [find?_map_upd _ u id hne]

theorem Heap.get_setUpvLoc_self (h : Heap) (u : ℕ) (loc : UpValueLocation) :
    (h.setUpvLoc u loc).get u = (h.get u).map (fun _ => .upValue loc) := by
  unfold Heap.setUpvLoc Heap.get
  rw [find?_map_upd_self, Option.map_map, Option.map_map]
  rfl

theorem Heap.alloc_snd_next (h : Heap) (o : ObjType) :
    (h.alloc o).2.next = h.next + 1 := rfl

theorem Heap.alloc_snd_length (h : Heap) (o : ObjType) :
    (h.alloc o).2.mem.length = h.mem.length + 1 := rfl

theorem Heap.alloc_fst (h : Heap) (o : ObjType) : (h.alloc o).1 = h.next := rfl

theorem Heap.get_alloc_self (h : Heap) (o : ObjType) :
    (h.alloc o).2.get h.next = some o := by
  unfold Heap.alloc Heap.get
  rw [List.find?_cons_of_pos _ (by simp)]
  rfl

theorem Heap.get_alloc_ne (h : Heap) (o : ObjType) (id : ℕ) (hne : id ≠ h.next) :
    (h.alloc o).2.get id = h.get id := by
  unfold Heap.alloc Heap.get
  rw [List.find?_cons_of_neg _
    (by simp only [decide_eq_true_eq]; exact fun hc => hne hc.symm)]

theorem Heap.getUpValue_setUpvLoc_ne (h : Heap) (u id : ℕ) (loc : UpValueLocation)
    (hne : id ≠ u) : (h.setUpvLoc u loc).getUpValue id = h.getUpValue id := by
  unfold Heap.getUpValue
  rw [Heap.get_setUpvLoc_ne h u id loc hne]

theorem Heap.getUpValue_alloc_ne (h : Heap) (o : ObjType) (id : ℕ) (hne : id ≠ h.next) :
    (h.alloc o).2.getUpValue id = h.getUpValue id := by
  unfold Heap.getUpValue
  rw [Heap.get_alloc_ne h o id hne]

theorem Heap.get_of_getUpValue (h : Heap) (id : ℕ) (loc : UpValueLocation)
    (hu : h.getUpValue id = some loc) : h.get id = some (.upValue loc) := by
  unfold Heap.getUpValue at hu
  rcases hg : h.get id with - | o
  · rw [hg] at hu
    simp at hu
  · rw [hg] at hu
    cases o with
    | upValue l =>
        simp only [Option.some.injEq] at hu
        rw [hu]
    | function c caps => simp at hu
    | closure c => simp at hu
    | boxed v => simp at hu

theorem Heap.getUpValue_setUpvLoc_self (h : Heap) (u : ℕ) (loc loc0 : UpValueLocation)
    (hu : h.getUpValue u = some loc0) :
    (h.setUpvLoc u loc).getUpValue u = some loc := by
  unfold Heap.getUpValue
  rw [Heap.get_setUpvLoc_self, Heap.get_of_getUpValue h u loc0 hu]
  rfl

theorem Heap.lt_next_of_getUpValue (h : Heap) (id : ℕ) (loc : UpValueLocation)
    (hwf : ∀ p ∈ h.mem, p.1 < h.next) (hu : h.getUpValue id = some loc) :
    id < h.next := by
  have hg := Heap.get_of_getUpValue h id loc hu
  unfold Heap.get at hg
  rcases hf : h.mem.find? (fun p => p.1 = id) with - | p
  · rw [hf] at hg
    exact Option.noConfusion hg
  · have hmem := List.mem_of_find?_eq_some hf
    have hkey : p.1 = id := by simpa using List.find?_some hf
    exact hkey ▸ hwf p hmem

/-- Effect of the inner scan of `close_upvalues`: every listed upvalue
that is Open at exactly `slot` is closed to `boxId`; everything else in
the heap is untouched. -/
theorem closeScan_spec (slot boxId : ℕ) (opens : List ℕ) :
    ∀ h : Heap, (∀ u ∈ opens, (h.getUpValue u).isSome) →
      ∃ h', closeScan slot boxId h opens = some h' ∧
        h'.next = h.next ∧ h'.mem.length = h.mem.length ∧
        ∀ id, h'.get id =
          if id ∈ opens ∧ h.getUpValue id = some (.stack slot)
          then some (.upValue (.heap boxId)) else h.get id := by
  induction opens with
  | nil =>
      intro h _
      exact ⟨h, rfl, rfl, rfl, fun id => by rw [if_neg (by simp)]⟩
  | cons u us ih =>
      intro h hres
      have hu : (h.getUpValue u).isSome := hres u (by simp)
      obtain ⟨loc, hloc⟩ := Option.isSome_iff_exists.mp hu
      cases loc with
      | stack l =>
          by_cases hl : l = slot
          · rw [hl] at hloc
            have h1get_ne : ∀ id, id ≠ u →
                (h.setUpvLoc u (.heap boxId)).get id = h.get id :=
              fun id hid => Heap.get_setUpvLoc_ne h u id _ hid
            have h1gu_ne : ∀ id, id ≠ u →
                (h.setUpvLoc u (.heap boxId)).getUpValue id = h.getUpValue id :=
              fun id hid => Heap.getUpValue_setUpvLoc_ne h u id _ hid
            have h1get_u : (h.setUpvLoc u (.heap boxId)).get u =
                some (.upValue (.heap boxId)) := by
              rw [Heap.get_setUpvLoc_self, Heap.get_of_getUpValue h u _ hloc]
              rfl
            have h1gu_u : (h.setUpvLoc u (.heap boxId)).getUpValue u =
                some (.heap boxId) :=
              Heap.getUpValue_setUpvLoc_self h u _ _ hloc
            have hres1 : ∀ v ∈ us, ((h.setUpvLoc u (.heap boxId)).getUpValue v).isSome := by
              intro v hv
              by_cases hvu : v = u
              · subst hvu
                rw [h1gu_u]
                rfl
              · rw [h1gu_ne v hvu]
                exact hres v (List.mem_cons_of_mem _ hv)
            obtain ⟨h', he, hn, hlen, hchar⟩ := ih (h.setUpvLoc u (.heap boxId)) hres1
            refine ⟨h', ?_, ?_, ?_, ?_⟩
            · simp only [closeScan, hloc]
              simpa using he
            · exact hn.trans (Heap.setUpvLoc_next h u _)
            · exact hlen.trans (Heap.setUpvLoc_length h u _)
            · intro id
              rw [hchar id]
              by_cases hid : id = u
              · subst hid
                rw [if_neg (by simp [h1gu_u]), if_pos ⟨by simp, hloc⟩]
                exact h1get_u
              · rw [h1gu_ne id hid, h1get_ne id hid]
                by_cases hcond : id ∈ us ∧ h.getUpValue id = some (.stack slot)
                · rw [if_pos hcond, if_pos ⟨List.mem_cons_of_mem _ hcond.1, hcond.2⟩]
                · rw [if_neg hcond,
                    if_neg (fun hc => hcond ⟨(by simpa [hid] using hc.1), hc.2⟩)]
          · obtain ⟨h', he, hn, hlen, hchar⟩ :=
              ih h (fun v hv => hres v (List.mem_cons_of_mem _ hv))
            have hX : h.getUpValue u ≠ some (.stack slot) := by
              rw [hloc]
              intro hc
              exact hl (by injection (Option.some.inj hc))
            refine ⟨h', ?_, hn, hlen, ?_⟩
            · simp only [closeScan, hloc]
              rw [if_neg hl]
              exact he
            · intro id
              rw [hchar id]
              by_cases hid : id = u
              · subst hid
                rw [if_neg (fun hc => hX hc.2), if_neg (fun hc => hX hc.2)]
              · by_cases hcond : id ∈ us ∧ h.getUpValue id = some (.stack slot)
                · rw [if_pos hcond, if_pos ⟨List.mem_cons_of_mem _ hcond.1, hcond.2⟩]
                · rw [if_neg hcond,
                    if_neg (fun hc => hcond ⟨(by simpa [hid] using hc.1), hc.2⟩)]
      | heap hid0 =>
          obtain ⟨h', he, hn, hlen, hchar⟩ :=
            ih h (fun v hv => hres v (List.mem_cons_of_mem _ hv))
          have hX : h.getUpValue u ≠ some (.stack slot) := by
            rw [hloc]
            intro hc
            exact UpValueLocation.noConfusion (Option.some.inj hc)
          refine ⟨h', ?_, hn, hlen, ?_⟩
          · simp only [closeScan, hloc]
            exact he
          · intro id
            rw [hchar id]
            by_cases hid : id = u
            · subst hid
              rw [if_neg (fun hc => hX hc.2), if_neg (fun hc => hX hc.2)]
            · by_cases hcond : id ∈ us ∧ h.getUpValue id = some (.stack slot)
              · rw [if_pos hcond, if_pos ⟨List.mem_cons_of_mem _ hcond.1, hcond.2⟩]
              · rw [if_neg hcond,
                  if_neg (fun hc => hcond ⟨(by simpa [hid] using hc.1), hc.2⟩)]

theorem Heap.getUpValue_congr (h h' : Heap) (id : ℕ) (hg : h'.get id = h.get id) :
    h'.getUpValue id = h.getUpValue id := by
  unfold Heap.getUpValue
  rw [hg]

theorem Heap.allocVal_fst (h : Heap) (v : Value) : (h.allocVal v).1 = h.next := rfl

theorem Heap.allocVal_snd_next (h : Heap) (v : Value) :
    (h.allocVal v).2.next = h.next + 1 := rfl

/-- Effect of the outer loop of `close_upvalues` over the captured-slot
list `cs`: one boxed cell per entry (ids `h.next + j` in order, holding
the stack values at the captured slots), every listed Open upvalue whose
slot matches the `j`-th captured slot closed to the `j`-th box, and
everything else untouched. -/
theorem closeSlots_spec (stack : Stack) (sb : ℕ) (opens : List ℕ) :
    ∀ (cs : List ℕ) (h : Heap),
      (∀ u ∈ opens, u < h.next) →
      (∀ u ∈ opens, (h.getUpValue u).isSome) →
      (∀ c ∈ cs, sb % 65536 + c < 65536 ∧ sb % 65536 + c < stack.length) →
      ∃ h', closeSlots stack sb opens h cs = some h' ∧
        h'.next = h.next + cs.length ∧
        h'.mem.length = h.mem.length + cs.length ∧
        (∀ j (hj : j < cs.length),
          h'.get (h.next + j) =
            (getStack? stack (sb % 65536 + cs.get ⟨j, hj⟩)).map .boxed) ∧
        (∀ id, id < h.next →
          h'.get id =
            match h.getUpValue id with
            | some (.stack l) =>
                if id ∈ opens then
                  match slotIdx sb l cs with
                  | some j => some (.upValue (.heap (h.next + j)))
                  | none => h.get id
                else h.get id
            | _ => h.get id) := by
  intro cs
  induction cs with
  | nil =>
      intro h _ _ _
      refine ⟨h, rfl, rfl, rfl, fun j hj => absurd hj (by simp), fun id _ => ?_⟩
      rcases hgu : h.getUpValue id with - | loc
      · rfl
      · cases loc with
        | stack l => by_cases hmem : id ∈ opens <;> simp [slotIdx, hmem]
        | heap l => rfl
  | cons c cs' ih =>
      intro h hbound hor hslots
      obtain ⟨hc16, hclen⟩ := hslots c (by simp)
      have hlenpos : 0 < stack.length := Nat.lt_of_le_of_lt (Nat.zero_le _) hclen
      obtain ⟨cur, hcur⟩ : ∃ v, getStack? stack (sb % 65536 + c) = some v := by
        unfold getStack?
        rw [if_pos hclen]
        have hidx : stack.length - 1 - (sb % 65536 + c) < stack.length :=
          Nat.lt_of_le_of_lt (Nat.sub_le _ _) (Nat.sub_lt hlenpos Nat.one_pos)
        exact ⟨stack.get ⟨_, hidx⟩, List.get?_eq_get hidx⟩
      have hres1 : ∀ u ∈ opens, ((h.allocVal cur).2.getUpValue u).isSome := by
        intro u hu
        rw [show (h.allocVal cur).2 = (h.alloc (.boxed cur)).2 from rfl,
          Heap.getUpValue_alloc_ne h _ u (Nat.ne_of_lt (hbound u hu))]
        exact hor u hu
      obtain ⟨h2, hscan, hn2, hlen2, hchar2⟩ :=
        closeScan_spec (sb % 65536 + c) h.next opens (h.allocVal cur).2 hres1
      have hg1_ne : ∀ id, id ≠ h.next → (h.allocVal cur).2.get id = h.get id :=
        fun id hid => Heap.get_alloc_ne h _ id hid
      have hg1_box : (h.allocVal cur).2.get h.next = some (.boxed cur) :=
        Heap.get_alloc_self h _
      have hgu1_ne : ∀ id, id ≠ h.next →
          (h.allocVal cur).2.getUpValue id = h.getUpValue id :=
        fun id hid => Heap.getUpValue_alloc_ne h _ id hid
      have hgu1_box : (h.allocVal cur).2.getUpValue h.next = none := by
        unfold Heap.getUpValue
        rw [hg1_box]
      have hn2' : h2.next = h.next + 1 := hn2.trans (Heap.allocVal_snd_next h cur)
      have hg2 : ∀ id, id ≠ h.next →
          ¬ (h.getUpValue id = some (.stack (sb % 65536 + c)) ∧ id ∈ opens) →
          h2.get id = h.get id := by
        intro id hid hnc
        rw [hchar2 id, if_neg, hg1_ne id hid]
        rw [hgu1_ne id hid]
        exact fun hc => hnc ⟨hc.2, hc.1⟩
      have hg2_closed : ∀ id, id ∈ opens →
          h.getUpValue id = some (.stack (sb % 65536 + c)) →
          h2.get id = some (.upValue (.heap h.next)) := by
        intro id hmem hloc
        have hid : id ≠ h.next := Nat.ne_of_lt (hbound id hmem)
        rw [hchar2 id, if_pos ⟨hmem, by rw [hgu1_ne id hid]; exact hloc⟩]
      have hg2_box : h2.get h.next = some (.boxed cur) := by
        rw [hchar2 h.next, if_neg (by simp [hgu1_box]), hg1_box]
      have hbound2 : ∀ u ∈ opens, u < h2.next :=
        fun u hu => hn2' ▸ Nat.lt_succ_of_lt (hbound u hu)
      have hor2 : ∀ u ∈ opens, (h2.getUpValue u).isSome := by
        intro u hu
        by_cases hclosed : h.getUpValue u = some (.stack (sb % 65536 + c))
        · rw [show h2.getUpValue u = some (.heap h.next) from by
            unfold Heap.getUpValue
            rw [hg2_closed u hu hclosed]]
          rfl
        · have hid : u ≠ h.next := Nat.ne_of_lt (hbound u hu)
          rw [Heap.getUpValue_congr h h2 u (hg2 u hid (fun hc => hclosed hc.1))]
          exact hor u hu
      obtain ⟨h', he', hn', hlen', hbox', hold'⟩ :=
        ih h2 hbound2 hor2 (fun c' hc' => hslots c' (List.mem_cons_of_mem _ hc'))
      refine ⟨h', ?_, ?_, ?_, ?_, ?_⟩
      · simp only [closeSlots]
        rw [if_pos hc16]
        simp only [hcur, Heap.allocVal_fst, hscan]
        exact he'
      · rw [hn', hn2']
        simp [Nat.add_assoc, Nat.add_comm 1]
      · rw [hlen', hlen2]
        rw [show ((h.allocVal cur).2.mem.length = h.mem.length + 1) from rfl]
        simp [Nat.add_assoc, Nat.add_comm 1]
      · intro j hj
        cases j with
        | zero =>
            have hlt : h.next + 0 < h2.next := by omega
            have hzero := hold' (h.next + 0) hlt
            have hgu2 : h2.getUpValue h.next = none := by
              unfold Heap.getUpValue
              rw [hg2_box]
            rw [hzero]
            simp only [Nat.add_zero, hgu2]
            show h2.get h.next = Option.map ObjType.boxed (getStack? stack (sb % 65536 + c))
            rw [hcur]
            exact hg2_box
        | succ j' =>
            have hj' : j' < cs'.length := by simpa using hj
            have := hbox' j' hj'
            rw [show h.next + (j' + 1) = h2.next + j' from by omega, this]
            rfl
      · intro id hid
        have hidne : id ≠ h.next := Nat.ne_of_lt hid
        have hid2 : id < h2.next := by omega
        have hold := hold' id hid2
        rcases hgu : h.getUpValue id with - | loc
        · have hgu2 : h2.getUpValue id = h.getUpValue id :=
            Heap.getUpValue_congr h h2 id (hg2 id hidne (by simp [hgu]))
          rw [hold, hgu2]
          simp only [hgu]
          exact hg2 id hidne (by simp [hgu])
        · cases loc with
          | stack l =>
              by_cases hmem : id ∈ opens
              · by_cases hsl : l = sb % 65536 + c
                · have hcl := hg2_closed id hmem (hsl ▸ hgu)
                  have hgu2 : h2.getUpValue id = some (.heap h.next) := by
                    unfold Heap.getUpValue
                    rw [hcl]
                  rw [hold]
                  simp only [hgu2, hgu, hsl]
                  rw [if_pos hmem]
                  simp only [slotIdx, if_pos rfl]
                  exact hcl
                · have hne2 : h2.get id = h.get id := hg2 id hidne (by
                    rintro ⟨hc1, -⟩
                    rw [hgu] at hc1
                    injection hc1 with hc2
                    injection hc2 with hc3
                    exact hsl hc3)
                  have hgu2 : h2.getUpValue id = some (.stack l) :=
                    (Heap.getUpValue_congr h h2 id hne2).trans hgu
                  have hstep : slotIdx sb l (c :: cs') = (slotIdx sb l cs').map (· + 1) := by
                    simp only [slotIdx]
                    rw [if_neg (fun hc => hsl hc.symm)]
                  rw [hold]
                  simp only [hgu2, hgu, hstep]
                  rw [if_pos hmem, if_pos hmem]
                  rcases hsi : slotIdx sb l cs' with - | j
                  · simp only [hsi, Option.map_none']
                    exact hne2
                  · simp only [hsi, Option.map_some']
                    rw [show h2.next + j = h.next + (j + 1) from by omega]
              · have hne2 : h2.get id = h.get id :=
                  hg2 id hidne (fun hc => hmem hc.2)
                have hgu2 : h2.getUpValue id = some (.stack l) :=
                  (Heap.getUpValue_congr h h2 id hne2).trans hgu
                rw [hold]
                simp only [hgu2, hgu]
                rw [if_neg hmem, if_neg hmem]
                exact hne2
          | heap hl =>
              have hne2 : h2.get id = h.get id :=
                hg2 id hidne (by simp [hgu])
              have hgu2 : h2.getUpValue id = some (.heap hl) :=
                (Heap.getUpValue_congr h h2 id hne2).trans hgu
              rw [hold]
              simp only [hgu2, hgu]
              exact hne2

theorem slotIdx_self (sb : ℕ) : ∀ (cs : List ℕ), cs.Nodup → ∀ j (hj : j < cs.length),
    slotIdx sb (sb % 65536 + cs.get ⟨j, hj⟩) cs = some j := by
  intro cs
  induction cs with
  | nil =>
      intro _ j hj
      exact absurd hj (by simp)
  | cons c cs' ih =>
      intro hnd j hj
      cases j with
      | zero =>
          show slotIdx sb (sb % 65536 + c) (c :: cs') = some 0
          simp [slotIdx]
      | succ j' =>
          have hj' : j' < cs'.length := by simpa using hj
          have hmem : cs'.get ⟨j', hj'⟩ ∈ cs' := List.get_mem _ _ _
          have hne : ¬ (sb % 65536 + c = sb % 65536 + cs'.get ⟨j', hj'⟩) := by
            intro hc
            have hcc : c = cs'.get ⟨j', hj'⟩ := Nat.add_left_cancel hc
            exact (List.nodup_cons.mp hnd).1 (hcc ▸ hmem)
          show slotIdx sb (sb % 65536 + cs'.get ⟨j', hj'⟩) (c :: cs') = some (j' + 1)
          simp only [slotIdx]
          rw [if_neg hne, ih (List.nodup_cons.mp hnd).2 j' hj']
          rfl

/-- C6: during the upvalue-closing protocol (`VM::close_upvalues`,
`vm.rs` lines 108–128), for each captured slot exactly one BoxedValue is
allocated (heap grows by exactly `cap.length` cells, the `j`-th new cell
`h.next + j` holding the current stack value at
`stack_base as u16 + cap[j]`), and EVERY listed Open upvalue whose stack
slot equals that absolute slot is transitioned to Closed pointing at
that same single cell `h.next + j` — so multiple upvalues aliasing one
slot share one boxed cell.  Hypotheses: the heap is well-formed (live
ids below `next`), the captured slots are distinct and in range, and
the listed ids resolve to upvalue cells (otherwise the source panics). -/
theorem c6_close_upvalues (h : Heap) (stack : Stack) (sb : ℕ) (cap opens : List ℕ)
    (hwf : ∀ p ∈ h.mem, p.1 < h.next)
    (hnodup : cap.Nodup)
    (hcap : ∀ c ∈ cap, sb % 65536 + c < 65536 ∧ sb % 65536 + c < stack.length)
    (hor : ∀ u ∈ opens, (h.getUpValue u).isSome) :
    ∃ h', closeUpvalues cap sb stack opens h = some h' ∧
      h'.mem.length = h.mem.length + cap.length ∧
      (∀ j (hj : j < cap.length),
        h'.get (h.next + j) =
          (getStack? stack (sb % 65536 + cap.get ⟨j, hj⟩)).map .boxed) ∧
      (∀ u ∈ opens, ∀ j (hj : j < cap.length),
        h.getUpValue u = some (.stack (sb % 65536 + cap.get ⟨j, hj⟩)) →
        h'.getUpValue u = some (.heap (h.next + j))) := by
  have hbound : ∀ u ∈ opens, u < h.next := by
    intro u hu
    obtain ⟨loc, hloc⟩ := Option.isSome_iff_exists.mp (hor u hu)
    exact Heap.lt_next_of_getUpValue h u loc hwf hloc
  obtain ⟨h', he, hn, hlen, hbox, hold⟩ :=
    closeSlots_spec stack sb opens cap h hbound hor hcap
  refine ⟨h', he, hlen, hbox, ?_⟩
  intro u hu j hj hloc
  have hlt : u < h.next := hbound u hu
  have hchar := hold u hlt
  simp only [hloc] at hchar
  rw [if_pos hu, slotIdx_self sb cap hnodup j hj] at hchar
  unfold Heap.getUpValue
  rw [hchar]

/-- Two Open upvalues (ids 5 and 6) aliasing absolute slot 0. -/
def c6h : Heap := ⟨10, [(5, .upValue (.stack 0)), (6, .upValue (.stack 0))]⟩

/-- Witness for C6: closing captured slot 0 over stack `[Number 42]`
allocates exactly one box (id 10, holding `Number 42`) and closes both
aliasing upvalues 5 and 6 onto that same cell. -/
theorem c6_witness :
    ∃ h', closeUpvalues [0] 0 [.number (.num 42)] [5, 6] c6h = some h' ∧
      h'.mem.length = 3 ∧
      h'.get 10 = some (.boxed (.number (.num 42))) ∧
      h'.getUpValue 5 = some (.heap 10) ∧
      h'.getUpValue 6 = some (.heap 10) := by
  obtain ⟨h', he, hlen, hbox, hclose⟩ :=
    c6_close_upvalues c6h [.number (.num 42)] 0 [0] [5, 6]
      (by decide) (by decide) (by decide) (by decide)
  refine ⟨h', he, by simpa using hlen, ?_, ?_, ?_⟩
  · have hb := hbox 0 (by decide)
    simpa using hb
  · have h5 := hclose 5 (by decide) 0 (by decide) rfl
    simpa using h5
  · have h6 := hclose 6 (by decide) 0 (by decide) rfl
    simpa using h6
